import Mathlib

/-!
Verification development for the fs-verity digest engine (src/lib.rs).

Modelling conventions:
* A hash digest state (sha2 incremental state) is represented by the exact
  transcript of bytes fed to it so far, as a `List Nat`; finalizing applies
  an abstract compression function `H` to the transcript.  This is faithful
  for any streaming hash: the final digest is a function of the byte stream.
* Machine integers (usize) are modelled as `Nat`; the only casts the source
  performs on descriptor bytes are `as u8`, written here as `% 256`.
* Rust panics (assert!, checked_sub().unwrap()) in constructors and in
  `update_padded` are modelled as `Option.none`.  `FixedSizeBlock.append`
  is modelled with truncated `Nat` subtraction; the invariant theorems show
  the subtraction never underflows at any reachable call site.
-/

namespace FsVerity

/-- The constant MAX_SALT_SIZE from the source. -/
def MAX_SALT_SIZE : Nat := 32

/-- The constant MAX_BLOCK_SIZE from the source. -/
def MAX_BLOCK_SIZE : Nat := 4096

/-- The constant DEFAULT_BLOCK_SIZE from the source. -/
def DEFAULT_BLOCK_SIZE : Nat := 4096

/-- Rust usize::is_power_of_two, written as the standard recursion on `n`
(count_ones n == 1 in the source; the two agree on all naturals, see
is_power_of_two_iff). -/
def is_power_of_two (n : Nat) : Bool :=
  if h : n = 0 then false
  else if n = 1 then true
  else n % 2 == 0 && is_power_of_two (n / 2)
termination_by n
decreasing_by exact Nat.div_lt_self (Nat.pos_of_ne_zero h) one_lt_two

/-- Rust usize::trailing_zeros (usize is 64-bit, so trailing_zeros 0 = 64). -/
def trailing_zeros (n : Nat) : Nat :=
  if h : n = 0 then 64
  else if n % 2 = 1 then 0
  else trailing_zeros (n / 2) + 1
termination_by n
decreasing_by exact Nat.div_lt_self (Nat.pos_of_ne_zero h) one_lt_two

/-- Little-endian byte encoding of `n` over `width` bytes, as in
u32::to_le_bytes / u64::to_le_bytes. -/
def to_le_bytes (n : Nat) (width : Nat) : List Nat :=
  match width with
  | 0 => []
  | w + 1 => n % 256 :: to_le_bytes (n / 256) w

/-- The method VerityDigestExt::update_zeroes: feeds `amount` zero bytes to the digest
state in chunks of at most 64 (the source loops over a 64-byte zero buffer). -/
def update_zeroes (s : List Nat) (amount : Nat) : List Nat :=
  if h : amount = 0 then s
  else update_zeroes (s ++ List.replicate (min 64 amount) 0) (amount - min 64 amount)
termination_by amount
decreasing_by
  have h1 : 1 ≤ min 64 amount := le_min (by norm_num) (Nat.one_le_iff_ne_zero.mpr h)
  omega

/-- The method VerityDigestExt::update_padded: feeds data, then zero-pads up to
`padded_size` total bytes.  The source panics (checked_sub().unwrap()) when
data.len() exceeds padded_size; that panic is modelled as none. -/
def update_padded (s : List Nat) (data : List Nat) (padded_size : Nat) : Option (List Nat) :=
  if data.length ≤ padded_size then
    some (update_zeroes (s ++ data) (padded_size - data.length))
  else none

/-- The digest primitive contract (trait VerityDigestExt: Update + FixedOutput
+ Reset + Default + Clone + BlockInput plus VERITY_HASH_ALGORITHM).  `H` maps
a full input transcript to the finalized digest; `h_len` is FixedOutput's
guarantee that digests have exactly `outputSize` bytes.  The source
instantiates this at Sha256 (32, 64, id 1) and Sha512 (64, 128, id 2). -/
structure HashPrimitive where
  H : List Nat → List Nat
  outputSize : Nat
  blockSize : Nat
  algId : Nat
  h_len : ∀ l, (H l).length = outputSize

/-- The struct FixedSizeBlock: hash state of one Merkle tree node plus how many
more payload bytes fit in it. -/
structure FixedSizeBlock where
  inner : List Nat
  remaining : Nat
deriving DecidableEq

/-- The method FixedSizeBlock::append.  The source panics when data.len() > remaining
(checked_sub().unwrap()); here `Nat` subtraction truncates, and the invariant
theorems show every reachable call satisfies data.length ≤ remaining. -/
def FixedSizeBlock.append (b : FixedSizeBlock) (data : List Nat) : FixedSizeBlock :=
  ⟨b.inner ++ data, b.remaining - data.length⟩

/-- The method FixedSizeBlock::overflowing_append: appends as much as fits, returns the
data that did not fit. -/
def FixedSizeBlock.overflowing_append (b : FixedSizeBlock) (data : List Nat) :
    FixedSizeBlock × List Nat :=
  let k := min b.remaining data.length
  (b.append (data.take k), data.drop k)

/-- The method FixedSizeBlock::clone_and_append. -/
def FixedSizeBlock.clone_and_append (b : FixedSizeBlock) (data : List Nat) : FixedSizeBlock :=
  b.append data

/-- The method FixedSizeBlock::finalize: zero-pads the remaining capacity and finalizes
the hash state. -/
def FixedSizeBlock.finalize (p : HashPrimitive) (b : FixedSizeBlock) : List Nat :=
  p.H (update_zeroes b.inner b.remaining)

/-- The struct FsVerityDigest (minus the phantom digest type parameter, which is
passed separately as a HashPrimitive to each operation). -/
structure FsVerityDigest where
  block_size : Nat
  salt : List Nat
  salted_digest : List Nat
  empty_block : FixedSizeBlock
  levels : List FixedSizeBlock
  total_size : Nat
deriving DecidableEq

/-- The constructor FsVerityDigest::new_with_block_size_and_salt.  The four assert! calls
plus the MAX_SALT_SIZE <= BlockSize assert are modelled as a guard returning
none on violation. -/
def new_with_block_size_and_salt (p : HashPrimitive) (block_size : Nat) (salt : List Nat) :
    Option FsVerityDigest :=
  if is_power_of_two block_size = true ∧ block_size ≤ MAX_BLOCK_SIZE ∧
      p.outputSize * 2 ≤ block_size ∧ salt.length ≤ MAX_SALT_SIZE ∧
      MAX_SALT_SIZE ≤ p.blockSize then
    match (if salt.length ≠ 0 then update_padded [] salt p.blockSize else some []) with
    | none => none
    | some salted_digest =>
      some { block_size := block_size, salt := salt, salted_digest := salted_digest,
             empty_block := ⟨salted_digest, block_size⟩, levels := [], total_size := 0 }
  else none

/-- The constructor FsVerityDigest::new. -/
def new (p : HashPrimitive) : Option FsVerityDigest :=
  new_with_block_size_and_salt p DEFAULT_BLOCK_SIZE []

/-- The level loop inside Update::update, for one chunk: pushes `overflow`
through the existing levels, flushing full blocks upward.  Returns the new
level list together with the data (or carried digest) that ran off the top. -/
def update_levels (p : HashPrimitive) (eb : FixedSizeBlock) :
    List FixedSizeBlock → List Nat → Bool → List FixedSizeBlock × List Nat
  | [], overflow, _ => ([], overflow)
  | level :: rest, overflow, keep_space_for_one_digest =>
    let pr := level.overflowing_append overflow
    if pr.2.length = 0 ∧ (keep_space_for_one_digest = false ∨ p.outputSize ≤ pr.1.remaining) then
      (pr.1 :: rest, [])
    else
      let q := update_levels p eb rest (FixedSizeBlock.finalize p pr.1) true
      (eb.clone_and_append pr.2 :: q.1, q.2)

/-- The body of Update::update for a single chunk of at most block_size
bytes: run the level loop, push a brand-new top level if data or a digest ran
off the top, and account the chunk in total_size. -/
def process_chunk (p : HashPrimitive) (e : FsVerityDigest) (chunk : List Nat) : FsVerityDigest :=
  let q := update_levels p e.empty_block e.levels chunk false
  let new_levels := if q.2.length = 0 then q.1 else q.1 ++ [e.empty_block.clone_and_append q.2]
  { e with levels := new_levels, total_size := e.total_size + chunk.length }

/-- Rust slice::chunks: splits data into consecutive chunks of block_size bytes,
the last one possibly shorter.  (Rust panics when block_size = 0; the engine
always has block_size > 0.) -/
def chunks (block_size : Nat) (data : List Nat) : List (List Nat) :=
  if _h : data.length = 0 ∨ block_size = 0 then []
  else data.take block_size :: chunks block_size (data.drop block_size)
termination_by data.length
decreasing_by simp only [List.length_drop]; omega

/-- The impl of Update::update for FsVerityDigest. -/
def update (p : HashPrimitive) (e : FsVerityDigest) (data : List Nat) : FsVerityDigest :=
  (chunks e.block_size data).foldl (fun acc c => process_chunk p acc c) e

/-- A sequence of update calls. -/
def update_many (p : HashPrimitive) (e : FsVerityDigest) (datas : List (List Nat)) :
    FsVerityDigest :=
  datas.foldl (fun acc d => update p acc d) e

/-- The flush loop at the start of FixedOutput::finalize_into: walks the
levels bottom to top, appending the previous level's digest and finalizing.
`last_digest` starts as Default::default() (outputSize zero bytes) and
`overflow` starts empty. -/
def flush_levels (p : HashPrimitive) :
    List FixedSizeBlock → List Nat → List Nat → List Nat
  | [], last_digest, _ => last_digest
  | level :: rest, _, overflow =>
    let d := FixedSizeBlock.finalize p (level.append overflow)
    flush_levels p rest d d

/-- The Merkle root produced by the flush loop (all-zero for empty input). -/
def root_hash (p : HashPrimitive) (levels : List FixedSizeBlock) : List Nat :=
  flush_levels p levels (List.replicate p.outputSize 0) []

/-- The transcript fed to the descriptor digest in finalize_into: the salted
initial state followed by the fsverity_descriptor fields, in source order.
none models the (unreachable for the source primitives) update_padded panic. -/
def descriptor_transcript (p : HashPrimitive) (e : FsVerityDigest) : Option (List Nat) :=
  let root := root_hash p e.levels
  let d := e.salted_digest ++ [1] ++ [p.algId] ++ [trailing_zeros e.block_size % 256] ++
    [e.salt.length % 256] ++ to_le_bytes 0 4 ++ to_le_bytes e.total_size 8
  match update_padded d root 64 with
  | none => none
  | some d2 =>
    match update_padded d2 e.salt MAX_SALT_SIZE with
    | none => none
    | some d3 => some (update_zeroes d3 144)

/-- The impl of FixedOutput::finalize_into: hash of the descriptor transcript. -/
def finalize_into (p : HashPrimitive) (e : FsVerityDigest) : Option (List Nat) :=
  (descriptor_transcript p e).map p.H

/-- The impl of Reset::reset: rebuilds a fresh engine with the same configuration. -/
def reset (p : HashPrimitive) (e : FsVerityDigest) : Option FsVerityDigest :=
  new_with_block_size_and_salt p e.block_size e.salt

/-- A model of std::io::Result, reduced to what the Write impl can produce. -/
inductive IoResult (α : Type) where
  | ok : α → IoResult α
  | err : IoResult α
deriving DecidableEq

/-- The impl of Write::write for FsVerityDigest: delegates to update, returns Ok(len). -/
def write (p : HashPrimitive) (e : FsVerityDigest) (buf : List Nat) :
    FsVerityDigest × IoResult Nat :=
  (update p e buf, IoResult.ok buf.length)

/-- The impl of Write::flush for FsVerityDigest: does nothing, returns Ok(()). -/
def flush (e : FsVerityDigest) : FsVerityDigest × IoResult Unit :=
  (e, IoResult.ok ())

/-- The invariants the source documents for the level hierarchy: level 0,
once created, is never empty (its remaining capacity is strictly below
block_size, and may be 0, i.e. exactly full); every higher level always has
room for at least one whole digest. -/
def EngineInv (p : HashPrimitive) (e : FsVerityDigest) : Prop :=
  ∀ L0 ls, e.levels = L0 :: ls →
    L0.remaining < e.block_size ∧ ∀ l ∈ ls, p.outputSize ≤ l.remaining

/-- The 256-byte fs-verity descriptor as the specification words it: version
byte 1, algorithm id byte, log2 of the block size, salt length byte, 4-byte
little-endian zero sig_size, 8-byte little-endian data size, root hash
zero-padded to 64 bytes, salt zero-padded to 32 bytes, 144 reserved zero
bytes. -/
def spec_descriptor (algorithm_id log_blocksize salt_size data_size : Nat)
    (root salt : List Nat) : List Nat :=
  [1, algorithm_id, log_blocksize, salt_size] ++ List.replicate 4 0 ++
    to_le_bytes data_size 8 ++ (root ++ List.replicate (64 - root.length) 0) ++
    (salt ++ List.replicate (32 - salt.length) 0) ++ List.replicate 144 0

/-- The upper part of the level list after a level-0 flush: the digest
cascade result, with a possible brand-new top level appended (this is the
composition of the tail of the update loop with the push after it). -/
def push_digest (p : HashPrimitive) (eb : FixedSizeBlock) (ls : List FixedSizeBlock)
    (d : List Nat) : List FixedSizeBlock :=
  if (update_levels p eb ls d true).2.length = 0 then (update_levels p eb ls d true).1
  else (update_levels p eb ls d true).1 ++ [eb.clone_and_append (update_levels p eb ls d true).2]

/-- A concrete test primitive used to witness the theorems: digests are 4
bytes, the compression block is 64 bytes, algorithm id 1. -/
def tPrim : HashPrimitive where
  H := fun l => [l.length % 256, 0, 0, 17]
  outputSize := 4
  blockSize := 64
  algId := 1
  h_len := fun _ => rfl

/-- The engine new_with_block_size_and_salt constructs for tPrim with
block_size 8 and empty salt. -/
def t8e : FsVerityDigest :=
  { block_size := 8, salt := [], salted_digest := [],
    empty_block := ⟨[], 8⟩, levels := [], total_size := 0 }

/-! ### Basic lemmas about the digest-extension helpers -/

theorem update_zeroes_spec (amount : Nat) :
    ∀ s, update_zeroes s amount = s ++ List.replicate amount 0 := by
  induction amount using Nat.strong_induction_on with
  | _ a ih =>
    intro s
    rw [update_zeroes]
    by_cases h : a = 0
    · simp [h]
    · have h1 : 1 ≤ min 64 a := le_min (by norm_num) (Nat.one_le_iff_ne_zero.mpr h)
      have h2 : min 64 a ≤ a := min_le_right _ _
      rw [dif_neg h, ih (a - min 64 a) (by omega), List.append_assoc, ← List.replicate_add]
      congr 2
      omega

theorem update_padded_le (s data : List Nat) (padded_size : Nat)
    (h : data.length ≤ padded_size) :
    update_padded s data padded_size =
      some (s ++ data ++ List.replicate (padded_size - data.length) 0) := by
  rw [update_padded, if_pos h, update_zeroes_spec]

theorem update_padded_gt (s data : List Nat) (padded_size : Nat)
    (h : padded_size < data.length) :
    update_padded s data padded_size = none := by
  rw [update_padded, if_neg (by omega)]

theorem to_le_bytes_length (n : Nat) : ∀ width, (to_le_bytes n width).length = width := by
  intro width
  induction width generalizing n with
  | zero => rfl
  | succ w ih => simp [to_le_bytes, ih]

theorem to_le_bytes_zero (width : Nat) :
    to_le_bytes 0 width = List.replicate width 0 := by
  induction width with
  | zero => rfl
  | succ w ih => simp [to_le_bytes, ih, List.replicate_succ]

/-! ### Lemmas about FixedSizeBlock -/

@[simp]
theorem FixedSizeBlock.append_nil_eq (b : FixedSizeBlock) : b.append [] = b := by
  cases b
  simp [FixedSizeBlock.append]

theorem FixedSizeBlock.append_append (b : FixedSizeBlock) (u v : List Nat) :
    (b.append u).append v = b.append (u ++ v) := by
  cases b
  simp [FixedSizeBlock.append, Nat.sub_sub]

@[simp]
theorem FixedSizeBlock.remaining_append (b : FixedSizeBlock) (d : List Nat) :
    (b.append d).remaining = b.remaining - d.length := rfl

@[simp]
theorem FixedSizeBlock.finalize_length (p : HashPrimitive) (b : FixedSizeBlock) :
    (FixedSizeBlock.finalize p b).length = p.outputSize := p.h_len _

theorem FixedSizeBlock.finalize_append_nil (p : HashPrimitive) (b : FixedSizeBlock) :
    FixedSizeBlock.finalize p (b.append []) = FixedSizeBlock.finalize p b := by
  rw [FixedSizeBlock.append_nil_eq]

/-! ### Arithmetic helpers: powers of two, trailing zeros, log2 -/

theorem is_power_of_two_iff (n : Nat) : is_power_of_two n = true ↔ ∃ k, n = 2 ^ k := by
  induction n using Nat.strong_induction_on with
  | _ n ih =>
    rw [is_power_of_two]
    by_cases h0 : n = 0
    · subst h0
      rw [dif_pos rfl]
      constructor
      · intro h
        cases h
      · rintro ⟨k, hk⟩
        have := Nat.pow_pos (n := k) (by norm_num : 0 < 2)
        omega
    · by_cases h1 : n = 1
      · subst h1
        rw [dif_neg h0, if_pos rfl]
        exact ⟨fun _ => ⟨0, rfl⟩, fun _ => rfl⟩
      · rw [dif_neg h0, if_neg h1, Bool.and_eq_true, beq_iff_eq,
          ih (n / 2) (Nat.div_lt_self (Nat.pos_of_ne_zero h0) one_lt_two)]
        constructor
        · rintro ⟨heven, k, hk⟩
          refine ⟨k + 1, ?_⟩
          have := pow_succ 2 k
          omega
        · rintro ⟨k, hk⟩
          match k with
          | 0 => omega
          | j + 1 =>
            have := pow_succ 2 j
            have hp := Nat.pow_pos (n := j) (by norm_num : 0 < 2)
            constructor
            · omega
            · exact ⟨j, by omega⟩

theorem is_power_of_two_pos (n : Nat) (h : is_power_of_two n = true) : 0 < n := by
  obtain ⟨k, hk⟩ := (is_power_of_two_iff n).mp h
  subst hk
  exact Nat.pow_pos (by norm_num)

theorem trailing_zeros_two_pow (k : Nat) : trailing_zeros (2 ^ k) = k := by
  induction k with
  | zero =>
    rw [pow_zero, trailing_zeros]
    norm_num
  | succ j ih =>
    have hp := Nat.pow_pos (n := j) (by norm_num : 0 < 2)
    have hs := pow_succ 2 j
    rw [trailing_zeros, dif_neg (by omega), if_neg (by omega)]
    have hdiv : 2 ^ (j + 1) / 2 = 2 ^ j := by omega
    rw [hdiv, ih]

theorem log2_two_pow (k : Nat) : Nat.log2 (2 ^ k) = k := by
  rw [Nat.log2_eq_log_two, Nat.log_pow one_lt_two]

/-! ### Lemmas about chunking -/

theorem chunks_nil (block_size : Nat) : chunks block_size [] = [] := by
  rw [chunks]
  simp

theorem chunks_cons (block_size : Nat) (data : List Nat) (h1 : data ≠ []) (h2 : block_size ≠ 0) :
    chunks block_size data =
      data.take block_size :: chunks block_size (data.drop block_size) := by
  rw [chunks, dif_neg]
  simp [List.length_eq_zero, h1, h2]

/-! ### Step lemmas for the level-cascade loop -/

theorem update_levels_nil (p : HashPrimitive) (eb : FixedSizeBlock) (ov : List Nat) (keep : Bool) :
    update_levels p eb [] ov keep = ([], ov) := rfl

/-- When the whole overflow fits and no pre-emptive flush is needed, the loop
appends in place and stops. -/
theorem update_levels_fit (p : HashPrimitive) (eb level : FixedSizeBlock)
    (rest : List FixedSizeBlock) (ov : List Nat) (keep : Bool)
    (h1 : ov.length ≤ level.remaining)
    (h2 : keep = false ∨ p.outputSize ≤ level.remaining - ov.length) :
    update_levels p eb (level :: rest) ov keep = (level.append ov :: rest, []) := by
  simp only [update_levels, FixedSizeBlock.overflowing_append, min_eq_right h1,
    List.take_length, List.drop_length]
  rw [if_pos]
  exact ⟨rfl, by simpa using h2⟩

/-- When the overflow does not fit, the level is flushed: it absorbs what
fits, its digest is carried upward, and a fresh block holding the leftover
replaces it. -/
theorem update_levels_overflow (p : HashPrimitive) (eb level : FixedSizeBlock)
    (rest : List FixedSizeBlock) (ov : List Nat) (keep : Bool)
    (h1 : level.remaining < ov.length) :
    update_levels p eb (level :: rest) ov keep =
      (eb.clone_and_append (ov.drop level.remaining) ::
        (update_levels p eb rest
          (FixedSizeBlock.finalize p (level.append (ov.take level.remaining))) true).1,
       (update_levels p eb rest
          (FixedSizeBlock.finalize p (level.append (ov.take level.remaining))) true).2) := by
  simp only [update_levels, FixedSizeBlock.overflowing_append, min_eq_left (le_of_lt h1)]
  rw [if_neg]
  rintro ⟨ha, -⟩
  rw [List.length_drop] at ha
  omega

/-- When the overflow fits exactly into a non-leaf level but leaves no room
for a whole further digest, the level is flushed pre-emptively with an empty
replacement block. -/
theorem update_levels_preflush (p : HashPrimitive) (eb level : FixedSizeBlock)
    (rest : List FixedSizeBlock) (ov : List Nat)
    (h1 : ov.length ≤ level.remaining)
    (h2 : level.remaining - ov.length < p.outputSize) :
    update_levels p eb (level :: rest) ov true =
      (eb :: (update_levels p eb rest
          (FixedSizeBlock.finalize p (level.append ov)) true).1,
       (update_levels p eb rest
          (FixedSizeBlock.finalize p (level.append ov)) true).2) := by
  simp only [update_levels, FixedSizeBlock.overflowing_append, min_eq_right h1,
    List.take_length, List.drop_length]
  rw [if_neg]
  · simp [FixedSizeBlock.clone_and_append]
  · rintro ⟨-, h | h⟩
    · cases h
    · rw [FixedSizeBlock.remaining_append] at h
      omega

/-! ### Lemmas about process_chunk -/

@[simp]
theorem process_chunk_block_size (p : HashPrimitive) (e : FsVerityDigest) (c : List Nat) :
    (process_chunk p e c).block_size = e.block_size := rfl

@[simp]
theorem process_chunk_salt (p : HashPrimitive) (e : FsVerityDigest) (c : List Nat) :
    (process_chunk p e c).salt = e.salt := rfl

@[simp]
theorem process_chunk_salted_digest (p : HashPrimitive) (e : FsVerityDigest) (c : List Nat) :
    (process_chunk p e c).salted_digest = e.salted_digest := rfl

@[simp]
theorem process_chunk_empty_block (p : HashPrimitive) (e : FsVerityDigest) (c : List Nat) :
    (process_chunk p e c).empty_block = e.empty_block := rfl

@[simp]
theorem process_chunk_total_size (p : HashPrimitive) (e : FsVerityDigest) (c : List Nat) :
    (process_chunk p e c).total_size = e.total_size + c.length := rfl

theorem process_chunk_nil_chunk (p : HashPrimitive) (e : FsVerityDigest) :
    process_chunk p e [] = e := by
  cases e with
  | mk bs salt sd eb levels t =>
    cases levels with
    | nil => simp [process_chunk, update_levels]
    | cons L0 ls =>
      simp [process_chunk,
        update_levels_fit p eb L0 ls [] false (by simp) (Or.inl rfl)]

/-- Evaluation of process_chunk when the chunk fits into level 0. -/
theorem process_chunk_fit (p : HashPrimitive) (e : FsVerityDigest) (L0 : FixedSizeBlock)
    (ls : List FixedSizeBlock) (c : List Nat)
    (hl : e.levels = L0 :: ls) (h1 : c.length ≤ L0.remaining) :
    process_chunk p e c =
      { e with levels := L0.append c :: ls, total_size := e.total_size + c.length } := by
  simp [process_chunk, hl, update_levels_fit p e.empty_block L0 ls c false h1 (Or.inl rfl)]

/-- Evaluation of process_chunk when no levels exist yet. -/
theorem process_chunk_new_level (p : HashPrimitive) (e : FsVerityDigest) (c : List Nat)
    (hl : e.levels = []) (h0 : c.length ≠ 0) :
    process_chunk p e c =
      { e with levels := [e.empty_block.clone_and_append c],
               total_size := e.total_size + c.length } := by
  simp [process_chunk, hl, update_levels_nil, h0]

/-- Evaluation of process_chunk when the chunk overflows level 0. -/
theorem process_chunk_overflow (p : HashPrimitive) (e : FsVerityDigest) (L0 : FixedSizeBlock)
    (ls : List FixedSizeBlock) (c : List Nat)
    (hl : e.levels = L0 :: ls) (h1 : L0.remaining < c.length) :
    process_chunk p e c =
      { e with
        levels := e.empty_block.clone_and_append (c.drop L0.remaining) ::
          push_digest p e.empty_block ls
            (FixedSizeBlock.finalize p (L0.append (c.take L0.remaining))),
        total_size := e.total_size + c.length } := by
  simp only [process_chunk, hl, update_levels_overflow p e.empty_block L0 ls c false h1,
    push_digest]
  by_cases hq : (update_levels p e.empty_block ls
      (FixedSizeBlock.finalize p (L0.append (c.take L0.remaining))) true).2.length = 0
  · simp [hq]
  · simp [hq, List.cons_append]

/-- Processing a chunk of at most block_size bytes equals processing all but
its last byte, then that byte.  This holds for every engine state whose
empty_block capacity matches block_size; the level invariants are not needed
because level 0 is allowed to fill completely. -/
theorem process_chunk_snoc (p : HashPrimitive) (e : FsVerityDigest) (c : List Nat) (x : Nat)
    (hE : e.empty_block.remaining = e.block_size)
    (hc : c.length + 1 ≤ e.block_size) :
    process_chunk p e (c ++ [x]) = process_chunk p (process_chunk p e c) [x] := by
  by_cases hc0 : c = []
  · subst hc0
    rw [process_chunk_nil_chunk]
    rfl
  · have hcl : 0 < c.length := List.length_pos.mpr hc0
    rcases hl : e.levels with - | ⟨L0, ls⟩
    · rw [process_chunk_new_level p e (c ++ [x]) hl (by simp),
        process_chunk_new_level p e c hl (by omega),
        process_chunk_fit p _ (e.empty_block.clone_and_append c) [] [x] rfl
          (by simp [FixedSizeBlock.clone_and_append]; omega)]
      simp [FixedSizeBlock.clone_and_append, FixedSizeBlock.append_append, Nat.add_assoc]
    · rcases Nat.lt_or_ge L0.remaining c.length with hr | hr
      · -- the chunk overflows level 0 already without its last byte
        rw [process_chunk_overflow p e L0 ls (c ++ [x]) hl (by simp; omega),
          process_chunk_overflow p e L0 ls c hl hr,
          List.take_append_of_le_length (le_of_lt hr),
          List.drop_append_of_le_length (le_of_lt hr),
          process_chunk_fit p _ (e.empty_block.clone_and_append (c.drop L0.remaining)) _ [x] rfl
            (by simp [FixedSizeBlock.clone_and_append]; omega)]
        simp [FixedSizeBlock.clone_and_append, FixedSizeBlock.append_append, Nat.add_assoc]
      · rcases Nat.eq_or_lt_of_le hr with hre | hrg
        · -- c fills level 0 exactly; the extra byte then flushes it
          rw [process_chunk_overflow p e L0 ls (c ++ [x]) hl (by simp; omega),
            process_chunk_fit p e L0 ls c hl (le_of_eq hre),
            process_chunk_overflow p _ (L0.append c) ls [x] rfl
              (by simp; omega)]
          have h0 : (L0.append c).remaining = 0 := by simp; omega
          rw [h0, List.take_zero, List.drop_zero, FixedSizeBlock.finalize_append_nil,
            ← hre, List.take_left, List.drop_left]
          simp [Nat.add_assoc]
        · -- everything, last byte included, fits into level 0
          rw [process_chunk_fit p e L0 ls (c ++ [x]) hl (by simp; omega),
            process_chunk_fit p e L0 ls c hl (by omega),
            process_chunk_fit p _ (L0.append c) ls [x] rfl (by simp; omega)]
          simp [FixedSizeBlock.append_append, Nat.add_assoc]

/-- Processing one chunk of at most block_size bytes is the same as
absorbing its bytes one at a time. -/
theorem process_chunk_eq_foldl (p : HashPrimitive) (e : FsVerityDigest)
    (hE : e.empty_block.remaining = e.block_size) :
    ∀ c : List Nat, c.length ≤ e.block_size →
      process_chunk p e c = c.foldl (fun acc b => process_chunk p acc [b]) e := by
  intro c
  induction c using List.reverseRecOn with
  | nil => exact fun _ => process_chunk_nil_chunk p e
  | append_singleton c x ih =>
    intro hc
    rw [List.foldl_append, process_chunk_snoc p e c x hE (by simpa using hc),
      ih (by simp at hc; omega)]
    rfl

theorem update_nil (p : HashPrimitive) (e : FsVerityDigest) : update p e [] = e := by
  rw [update, chunks_nil]
  rfl

/-- Configuration fields survive any fold of process_chunk. -/
theorem foldl_process_chunk_config (p : HashPrimitive) :
    ∀ (L : List (List Nat)) (e : FsVerityDigest),
      (L.foldl (fun acc c => process_chunk p acc c) e).block_size = e.block_size ∧
      (L.foldl (fun acc c => process_chunk p acc c) e).salt = e.salt ∧
      (L.foldl (fun acc c => process_chunk p acc c) e).salted_digest = e.salted_digest ∧
      (L.foldl (fun acc c => process_chunk p acc c) e).empty_block = e.empty_block := by
  intro L
  induction L with
  | nil => exact fun e => ⟨rfl, rfl, rfl, rfl⟩
  | cons c L ih =>
    intro e
    rcases ih (process_chunk p e c) with ⟨h1, h2, h3, h4⟩
    simp only [List.foldl_cons]
    exact ⟨by rw [h1]; simp, by rw [h2]; simp, by rw [h3]; simp, by rw [h4]; simp⟩

@[simp]
theorem update_block_size (p : HashPrimitive) (e : FsVerityDigest) (data : List Nat) :
    (update p e data).block_size = e.block_size :=
  (foldl_process_chunk_config p (chunks e.block_size data) e).1

@[simp]
theorem update_salt (p : HashPrimitive) (e : FsVerityDigest) (data : List Nat) :
    (update p e data).salt = e.salt :=
  (foldl_process_chunk_config p (chunks e.block_size data) e).2.1

@[simp]
theorem update_salted_digest (p : HashPrimitive) (e : FsVerityDigest) (data : List Nat) :
    (update p e data).salted_digest = e.salted_digest :=
  (foldl_process_chunk_config p (chunks e.block_size data) e).2.2.1

@[simp]
theorem update_empty_block (p : HashPrimitive) (e : FsVerityDigest) (data : List Nat) :
    (update p e data).empty_block = e.empty_block :=
  (foldl_process_chunk_config p (chunks e.block_size data) e).2.2.2

/-- The impl of Update::update is the per-byte fold: the engine state after an update
call depends only on the bytes fed, not on the chunk they arrived in. -/
theorem update_eq_foldl_aux (p : HashPrimitive) :
    ∀ (n : Nat) (e : FsVerityDigest) (data : List Nat), data.length ≤ n →
      e.empty_block.remaining = e.block_size → 0 < e.block_size →
      update p e data = data.foldl (fun acc b => process_chunk p acc [b]) e := by
  intro n
  induction n with
  | zero =>
    intro e data hlen hE hbs
    have hd : data = [] := List.length_eq_zero.mp (by omega)
    subst hd
    exact update_nil p e
  | succ n ih =>
    intro e data hlen hE hbs
    by_cases hd : data = []
    · subst hd
      exact update_nil p e
    · rw [update, chunks_cons e.block_size data hd (by omega), List.foldl_cons]
      have hstep : List.foldl (fun acc c => process_chunk p acc c)
          (process_chunk p e (data.take e.block_size))
          (chunks e.block_size (data.drop e.block_size)) =
          update p (process_chunk p e (data.take e.block_size)) (data.drop e.block_size) := by
        rw [update]
        simp only [process_chunk_block_size]
      rw [hstep,
        ih (process_chunk p e (data.take e.block_size)) (data.drop e.block_size)
          (by rw [List.length_drop]; omega)
          (by simp [hE]) (by simp; omega),
        process_chunk_eq_foldl p e hE (data.take e.block_size)
          (by rw [List.length_take]; exact min_le_left _ _),
        ← List.foldl_append, List.take_append_drop]

theorem update_eq_foldl (p : HashPrimitive) (e : FsVerityDigest) (data : List Nat)
    (hE : e.empty_block.remaining = e.block_size) (hbs : 0 < e.block_size) :
    update p e data = data.foldl (fun acc b => process_chunk p acc [b]) e :=
  update_eq_foldl_aux p data.length e data le_rfl hE hbs

/-- Two consecutive updates equal one update on the concatenation. -/
theorem update_update (p : HashPrimitive) (e : FsVerityDigest) (a b : List Nat)
    (hE : e.empty_block.remaining = e.block_size) (hbs : 0 < e.block_size) :
    update p (update p e a) b = update p e (a ++ b) := by
  rw [update_eq_foldl p e (a ++ b) hE hbs, List.foldl_append,
    ← update_eq_foldl p e a hE hbs,
    update_eq_foldl p (update p e a) b (by simp [hE]) (by simp; omega)]

/-- A sequence of updates equals a single update on the flattened input. -/
theorem update_many_eq_update (p : HashPrimitive) :
    ∀ (P : List (List Nat)) (e : FsVerityDigest),
      e.empty_block.remaining = e.block_size → 0 < e.block_size →
      update_many p e P = update p e P.flatten := by
  intro P
  induction P with
  | nil => exact fun e _ _ => (update_nil p e).symm
  | cons c P ih =>
    intro e hE hbs
    rw [update_many, List.foldl_cons]
    have : List.foldl (fun acc d => update p acc d) (update p e c) P =
        update_many p (update p e c) P := rfl
    rw [this, ih (update p e c) (by simp [hE]) (by simp; omega),
      update_update p e c P.flatten hE hbs, List.flatten_cons]

/-- What a successful construction guarantees about the returned engine. -/
theorem new_some (p : HashPrimitive) (block_size : Nat) (salt : List Nat) (e : FsVerityDigest)
    (h : new_with_block_size_and_salt p block_size salt = some e) :
    e.block_size = block_size ∧ e.salt = salt ∧
    e.empty_block = ⟨e.salted_digest, block_size⟩ ∧ e.levels = [] ∧ e.total_size = 0 ∧
    is_power_of_two block_size = true ∧ block_size ≤ MAX_BLOCK_SIZE ∧
    p.outputSize * 2 ≤ block_size ∧ salt.length ≤ MAX_SALT_SIZE ∧
    MAX_SALT_SIZE ≤ p.blockSize := by
  rw [new_with_block_size_and_salt] at h
  split at h
  case isTrue hcond =>
    split at h
    case h_1 => cases h
    case h_2 sd hsd =>
      injection h with h
      subst h
      exact ⟨rfl, rfl, rfl, rfl, rfl, hcond.1, hcond.2.1, hcond.2.2.1, hcond.2.2.2.1,
        hcond.2.2.2.2⟩
  case isFalse => cases h

theorem update_many_config (p : HashPrimitive) :
    ∀ (P : List (List Nat)) (e : FsVerityDigest),
      (update_many p e P).block_size = e.block_size ∧
      (update_many p e P).salt = e.salt ∧
      (update_many p e P).salted_digest = e.salted_digest ∧
      (update_many p e P).empty_block = e.empty_block := by
  intro P
  induction P with
  | nil => exact fun e => ⟨rfl, rfl, rfl, rfl⟩
  | cons c P ih =>
    intro e
    rcases ih (update p e c) with ⟨h1, h2, h3, h4⟩
    have hm : update_many p e (c :: P) = update_many p (update p e c) P := rfl
    rw [hm]
    exact ⟨by rw [h1]; simp, by rw [h2]; simp, by rw [h3]; simp, by rw [h4]; simp⟩

@[simp]
theorem update_many_block_size (p : HashPrimitive) (e : FsVerityDigest) (P : List (List Nat)) :
    (update_many p e P).block_size = e.block_size := (update_many_config p P e).1

@[simp]
theorem update_many_salt (p : HashPrimitive) (e : FsVerityDigest) (P : List (List Nat)) :
    (update_many p e P).salt = e.salt := (update_many_config p P e).2.1

@[simp]
theorem update_many_salted_digest (p : HashPrimitive) (e : FsVerityDigest) (P : List (List Nat)) :
    (update_many p e P).salted_digest = e.salted_digest := (update_many_config p P e).2.2.1

@[simp]
theorem update_many_empty_block (p : HashPrimitive) (e : FsVerityDigest) (P : List (List Nat)) :
    (update_many p e P).empty_block = e.empty_block := (update_many_config p P e).2.2.2

/-! ### The level invariants (claim C4 machinery) -/

theorem push_digest_nil (p : HashPrimitive) (eb : FixedSizeBlock) (d : List Nat)
    (hd : d.length ≠ 0) :
    push_digest p eb [] d = [eb.clone_and_append d] := by
  rw [push_digest, update_levels_nil]
  simp [hd]

theorem push_digest_cons_fit (p : HashPrimitive) (eb L : FixedSizeBlock)
    (ls : List FixedSizeBlock) (d : List Nat)
    (h1 : d.length ≤ L.remaining) (h2 : p.outputSize ≤ L.remaining - d.length) :
    push_digest p eb (L :: ls) d = L.append d :: ls := by
  rw [push_digest, update_levels_fit p eb L ls d true h1 (Or.inr h2)]
  simp

theorem push_digest_cons_flush (p : HashPrimitive) (eb L : FixedSizeBlock)
    (ls : List FixedSizeBlock) (d : List Nat)
    (h1 : d.length ≤ L.remaining) (h2 : L.remaining - d.length < p.outputSize) :
    push_digest p eb (L :: ls) d =
      eb :: push_digest p eb ls (FixedSizeBlock.finalize p (L.append d)) := by
  rw [push_digest, update_levels_preflush p eb L ls d h1 h2, push_digest]
  by_cases hq : (update_levels p eb ls
      (FixedSizeBlock.finalize p (L.append d)) true).2.length = 0
  · simp [hq]
  · simp [hq, List.cons_append]

/-- The digest cascade keeps every non-leaf level with room for at least one
more digest. -/
theorem push_digest_inv (p : HashPrimitive) (eb : FixedSizeBlock)
    (hos : 0 < p.outputSize) (hbs : p.outputSize * 2 ≤ eb.remaining) :
    ∀ (ls : List FixedSizeBlock) (d : List Nat), d.length = p.outputSize →
      (∀ l ∈ ls, p.outputSize ≤ l.remaining) →
      ∀ l ∈ push_digest p eb ls d, p.outputSize ≤ l.remaining := by
  intro ls
  induction ls with
  | nil =>
    intro d hd _ l hl
    rw [push_digest_nil p eb d (by omega)] at hl
    simp at hl
    subst hl
    simp [FixedSizeBlock.clone_and_append]
    omega
  | cons L ls ih =>
    intro d hd hinv l hl
    have hL : p.outputSize ≤ L.remaining := hinv L (List.mem_cons_self _ _)
    by_cases hroom : p.outputSize ≤ L.remaining - d.length
    · rw [push_digest_cons_fit p eb L ls d (by omega) hroom] at hl
      rcases List.mem_cons.mp hl with rfl | hl
      · simp
        omega
      · exact hinv l (List.mem_cons_of_mem _ hl)
    · rw [push_digest_cons_flush p eb L ls d (by omega) (by omega)] at hl
      rcases List.mem_cons.mp hl with rfl | hl
      · omega
      · exact ih (FixedSizeBlock.finalize p (L.append d)) (by simp)
          (fun l hl => hinv l (List.mem_cons_of_mem _ hl)) l hl

/-- Preservation: process_chunk preserves the level invariants. -/
theorem process_chunk_inv (p : HashPrimitive) (e : FsVerityDigest) (c : List Nat)
    (hE : e.empty_block.remaining = e.block_size)
    (hos : 0 < p.outputSize) (h2os : p.outputSize * 2 ≤ e.block_size)
    (hc0 : c ≠ []) (hc : c.length ≤ e.block_size)
    (hinv : EngineInv p e) : EngineInv p (process_chunk p e c) := by
  have hcl : 0 < c.length := List.length_pos.mpr hc0
  rcases hl : e.levels with - | ⟨L0, ls⟩
  · rw [process_chunk_new_level p e c hl (by omega)]
    intro A As hA
    simp only [] at hA
    simp at hA
    obtain ⟨rfl, rfl⟩ := hA
    refine ⟨?_, by simp⟩
    simp [FixedSizeBlock.clone_and_append]
    omega
  · obtain ⟨hr0, hupper⟩ := hinv L0 ls hl
    rcases Nat.lt_or_ge L0.remaining c.length with hr | hr
    · rw [process_chunk_overflow p e L0 ls c hl hr]
      intro A As hA
      simp at hA
      obtain ⟨rfl, rfl⟩ := hA
      constructor
      · simp [FixedSizeBlock.clone_and_append]
        omega
      · intro l hl2
        exact push_digest_inv p e.empty_block hos (by omega) ls
          (FixedSizeBlock.finalize p (L0.append (c.take L0.remaining))) (by simp) hupper l hl2
    · rw [process_chunk_fit p e L0 ls c hl hr]
      intro A As hA
      simp at hA
      obtain ⟨rfl, rfl⟩ := hA
      exact ⟨by simp; omega, hupper⟩

/-- Every chunk slice::chunks produces is nonempty and at most block_size
long. -/
theorem chunks_mem (block_size : Nat) :
    ∀ (n : Nat) (data : List Nat), data.length ≤ n →
      ∀ c ∈ chunks block_size data, c ≠ [] ∧ c.length ≤ block_size := by
  intro n
  induction n with
  | zero =>
    intro data hlen c hc
    have hd : data = [] := List.length_eq_zero.mp (by omega)
    subst hd
    rw [chunks_nil] at hc
    cases hc
  | succ n ih =>
    intro data hlen c hc
    by_cases hd : data = []
    · subst hd
      rw [chunks_nil] at hc
      cases hc
    · by_cases hbs : block_size = 0
      · rw [chunks, dif_pos (Or.inr hbs)] at hc
        cases hc
      · rw [chunks_cons block_size data hd hbs] at hc
        rcases List.mem_cons.mp hc with rfl | hc
        · constructor
          · simp [List.take_eq_nil_iff, hd, hbs]
          · rw [List.length_take]
            exact min_le_left _ _
        · exact ih (data.drop block_size)
            (by rw [List.length_drop]; omega) c hc

theorem foldl_process_chunk_inv (p : HashPrimitive) (hos : 0 < p.outputSize) :
    ∀ (L : List (List Nat)) (e : FsVerityDigest),
      e.empty_block.remaining = e.block_size → p.outputSize * 2 ≤ e.block_size →
      (∀ c ∈ L, c ≠ [] ∧ c.length ≤ e.block_size) →
      EngineInv p e →
      EngineInv p (L.foldl (fun acc c => process_chunk p acc c) e) := by
  intro L
  induction L with
  | nil => exact fun e _ _ _ hinv => hinv
  | cons c L ih =>
    intro e hE h2os hmem hinv
    obtain ⟨hc0, hc⟩ := hmem c (List.mem_cons_self _ _)
    rw [List.foldl_cons]
    exact ih (process_chunk p e c) (by simp [hE]) (by simpa using h2os)
      (fun d hd => by simpa using hmem d (List.mem_cons_of_mem _ hd))
      (process_chunk_inv p e c hE hos h2os hc0 hc hinv)

/-- Preservation: update preserves the level invariants. -/
theorem update_inv (p : HashPrimitive) (e : FsVerityDigest) (data : List Nat)
    (hE : e.empty_block.remaining = e.block_size)
    (hos : 0 < p.outputSize) (h2os : p.outputSize * 2 ≤ e.block_size)
    (hinv : EngineInv p e) : EngineInv p (update p e data) := by
  rw [update]
  exact foldl_process_chunk_inv p hos (chunks e.block_size data) e hE h2os
    (chunks_mem e.block_size data.length data le_rfl) hinv

/-- Any sequence of updates preserves the level invariants. -/
theorem update_many_inv (p : HashPrimitive) (hos : 0 < p.outputSize) :
    ∀ (P : List (List Nat)) (e : FsVerityDigest),
      e.empty_block.remaining = e.block_size → p.outputSize * 2 ≤ e.block_size →
      EngineInv p e → EngineInv p (update_many p e P) := by
  intro P
  induction P with
  | nil => exact fun e _ _ hinv => hinv
  | cons c P ih =>
    intro e hE h2os hinv
    have hm : update_many p e (c :: P) = update_many p (update p e c) P := rfl
    rw [hm]
    exact ih (update p e c) (by simp [hE]) (by simpa using h2os)
      (update_inv p e c hE hos h2os hinv)

/-! ### Finalization and the descriptor -/

theorem flush_levels_length (p : HashPrimitive) :
    ∀ (levels : List FixedSizeBlock) (last_digest ov : List Nat),
      last_digest.length = p.outputSize →
      (flush_levels p levels last_digest ov).length = p.outputSize := by
  intro levels
  induction levels with
  | nil => exact fun last ov h => h
  | cons l ls ih =>
    intro last ov _
    rw [flush_levels]
    exact ih _ _ (FixedSizeBlock.finalize_length p _)

@[simp]
theorem root_hash_length (p : HashPrimitive) (levels : List FixedSizeBlock) :
    (root_hash p levels).length = p.outputSize :=
  flush_levels_length p levels _ [] (List.length_replicate _ _)

/-- The exact byte transcript finalize_into hashes, when the root digest fits
the 64-byte field and the salt fits the 32-byte field (always true for the
source primitives, whose outputs are 32 or 64 bytes). -/
theorem descriptor_transcript_eq (p : HashPrimitive) (e : FsVerityDigest)
    (hos : p.outputSize ≤ 64) (hsalt : e.salt.length ≤ MAX_SALT_SIZE) :
    descriptor_transcript p e = some (
      e.salted_digest ++ [1] ++ [p.algId] ++ [trailing_zeros e.block_size % 256] ++
      [e.salt.length % 256] ++ to_le_bytes 0 4 ++ to_le_bytes e.total_size 8 ++
      root_hash p e.levels ++ List.replicate (64 - p.outputSize) 0 ++
      e.salt ++ List.replicate (32 - e.salt.length) 0 ++ List.replicate 144 0) := by
  have h1 : (root_hash p e.levels).length ≤ 64 := by
    rw [root_hash_length]
    exact hos
  simp only [descriptor_transcript]
  rw [update_padded_le _ _ _ h1]
  simp only []
  rw [update_padded_le _ _ _ hsalt]
  simp only []
  rw [update_zeroes_spec, root_hash_length]
  simp [List.append_assoc, MAX_SALT_SIZE]

theorem finalize_into_eq (p : HashPrimitive) (e : FsVerityDigest) (X : List Nat)
    (h : descriptor_transcript p e = some X) : finalize_into p e = some (p.H X) := by
  rw [finalize_into, h]
  rfl

/-- Finalization hashes exactly the salted state followed by the descriptor
as the spec words it. -/
theorem finalize_descriptor_spec (p : HashPrimitive) (e : FsVerityDigest) (k : Nat)
    (hos : p.outputSize ≤ 64) (hsalt : e.salt.length ≤ 32)
    (hbs : e.block_size = 2 ^ k) (hk : k < 256) :
    finalize_into p e = some (p.H (e.salted_digest ++
      spec_descriptor p.algId (Nat.log2 e.block_size) e.salt.length e.total_size
        (root_hash p e.levels) e.salt)) := by
  apply finalize_into_eq
  rw [descriptor_transcript_eq p e hos hsalt]
  congr 1
  have htz : trailing_zeros e.block_size % 256 = Nat.log2 e.block_size := by
    rw [hbs, trailing_zeros_two_pow, log2_two_pow, Nat.mod_eq_of_lt hk]
  have hs256 : e.salt.length % 256 = e.salt.length := Nat.mod_eq_of_lt (by omega)
  rw [htz, hs256, spec_descriptor, to_le_bytes_zero, root_hash_length]
  simp [List.append_assoc]

theorem spec_descriptor_length (a b c d : Nat) (root salt : List Nat)
    (hr : root.length ≤ 64) (hs : salt.length ≤ 32) :
    (spec_descriptor a b c d root salt).length = 256 := by
  simp [spec_descriptor, to_le_bytes_length]
  omega

/-- Evaluation of the constructor on the concrete witness configuration. -/
theorem t8e_new : new_with_block_size_and_salt tPrim 8 [] = some t8e := by
  have hcond : is_power_of_two 8 = true ∧ 8 ≤ MAX_BLOCK_SIZE ∧ tPrim.outputSize * 2 ≤ 8 ∧
      ([] : List Nat).length ≤ MAX_SALT_SIZE ∧ MAX_SALT_SIZE ≤ tPrim.blockSize :=
    ⟨(is_power_of_two_iff 8).mpr ⟨3, by norm_num⟩, by decide, by decide, by decide, by decide⟩
  rw [new_with_block_size_and_salt, if_pos hcond]
  simp [t8e]

/-! ### The claims -/

/-- Claim C1: for every byte sequence S and every partition of S into an
ordered sequence of chunks, feeding the chunks to update in order and then
finalizing yields the identical digest as any other partition, in particular
one whole-buffer update; the result does not depend on chunk boundaries. -/
theorem claim_C1_boundary_independence (p : HashPrimitive) (block_size : Nat)
    (salt : List Nat) (e0 : FsVerityDigest) (P1 P2 : List (List Nat)) (S : List Nat)
    (h : new_with_block_size_and_salt p block_size salt = some e0)
    (h1 : P1.flatten = S) (h2 : P2.flatten = S) :
    finalize_into p (update_many p e0 P1) = finalize_into p (update_many p e0 P2) ∧
    finalize_into p (update_many p e0 P1) = finalize_into p (update p e0 S) := by
  obtain ⟨hbs, -, hemp, -, -, hpow, -⟩ := new_some p block_size salt e0 h
  have hE : e0.empty_block.remaining = e0.block_size := by
    rw [hemp, hbs]
  have hpos : 0 < e0.block_size := by
    rw [hbs]
    exact is_power_of_two_pos _ hpow
  rw [update_many_eq_update p P1 e0 hE hpos, update_many_eq_update p P2 e0 hE hpos, h1, h2]
  exact ⟨rfl, rfl⟩

theorem claim_C1_witness :
    finalize_into tPrim (update_many tPrim t8e [[1, 2], [3]]) =
        finalize_into tPrim (update_many tPrim t8e [[1, 2, 3]]) ∧
    finalize_into tPrim (update_many tPrim t8e [[1, 2], [3]]) =
        finalize_into tPrim (update tPrim t8e [1, 2, 3]) :=
  claim_C1_boundary_independence tPrim 8 [] t8e [[1, 2], [3]] [[1, 2, 3]] [1, 2, 3]
    t8e_new (by decide) (by decide)

/-- Claim C2: on finalize, the returned digest is the hash, from a fresh copy
of the salted initial state, of the 256-byte descriptor: version byte 1, the
algorithm id byte, log2 of the block size, the salt length byte, 4-byte
little-endian zero sig_size, 8-byte little-endian total size, the root hash
zero-padded to 64 bytes, the salt zero-padded to 32 bytes, 144 zero bytes. -/
theorem claim_C2_descriptor (p : HashPrimitive) (block_size : Nat) (salt : List Nat)
    (e0 : FsVerityDigest) (ds : List (List Nat))
    (h : new_with_block_size_and_salt p block_size salt = some e0)
    (hos : p.outputSize ≤ 64) :
    finalize_into p (update_many p e0 ds) =
      some (p.H ((update_many p e0 ds).salted_digest ++
        spec_descriptor p.algId (Nat.log2 (update_many p e0 ds).block_size)
          (update_many p e0 ds).salt.length (update_many p e0 ds).total_size
          (root_hash p (update_many p e0 ds).levels) (update_many p e0 ds).salt)) ∧
    (spec_descriptor p.algId (Nat.log2 (update_many p e0 ds).block_size)
      (update_many p e0 ds).salt.length (update_many p e0 ds).total_size
      (root_hash p (update_many p e0 ds).levels) (update_many p e0 ds).salt).length = 256 := by
  obtain ⟨hbs, hsalt, -, -, -, hpow, hmax, -, hsl, -⟩ := new_some p block_size salt e0 h
  obtain ⟨k, hk⟩ := (is_power_of_two_iff block_size).mp hpow
  have hsl' : salt.length ≤ 32 := hsl
  have hmax' : block_size ≤ 4096 := hmax
  have hk12 : k ≤ 12 := by
    rw [hk, show (4096 : Nat) = 2 ^ 12 by norm_num] at hmax'
    exact (Nat.pow_le_pow_iff_right one_lt_two).mp hmax'
  have hEbs : (update_many p e0 ds).block_size = 2 ^ k := by
    rw [update_many_block_size, hbs, hk]
  have hEsalt : (update_many p e0 ds).salt.length ≤ 32 := by
    rw [update_many_salt, hsalt]
    exact hsl'
  constructor
  · exact finalize_descriptor_spec p (update_many p e0 ds) k hos hEsalt hEbs (by omega)
  · exact spec_descriptor_length _ _ _ _ _ _ (by rw [root_hash_length]; exact hos) hEsalt

theorem claim_C2_witness :
    finalize_into tPrim (update_many tPrim t8e [[1, 2]]) =
      some (tPrim.H ((update_many tPrim t8e [[1, 2]]).salted_digest ++
        spec_descriptor tPrim.algId (Nat.log2 (update_many tPrim t8e [[1, 2]]).block_size)
          (update_many tPrim t8e [[1, 2]]).salt.length
          (update_many tPrim t8e [[1, 2]]).total_size
          (root_hash tPrim (update_many tPrim t8e [[1, 2]]).levels)
          (update_many tPrim t8e [[1, 2]]).salt)) ∧
    (spec_descriptor tPrim.algId (Nat.log2 (update_many tPrim t8e [[1, 2]]).block_size)
      (update_many tPrim t8e [[1, 2]]).salt.length
      (update_many tPrim t8e [[1, 2]]).total_size
      (root_hash tPrim (update_many tPrim t8e [[1, 2]]).levels)
      (update_many tPrim t8e [[1, 2]]).salt).length = 256 :=
  claim_C2_descriptor tPrim 8 [] t8e [[1, 2]] t8e_new (by decide)

/-- Claim C3: finalize on an engine that received no update produces the
descriptor hash with an all-zero 64-byte root field and data_size 0, and the
root value involves no hashing: it is the all-zero digest for every choice of
hash function. -/
theorem claim_C3_empty_input (p : HashPrimitive) (block_size : Nat) (salt : List Nat)
    (e0 : FsVerityDigest)
    (h : new_with_block_size_and_salt p block_size salt = some e0)
    (hos : p.outputSize ≤ 64) :
    finalize_into p e0 = some (p.H (e0.salted_digest ++
      spec_descriptor p.algId (Nat.log2 e0.block_size) e0.salt.length 0
        (List.replicate 64 0) e0.salt)) ∧
    root_hash p e0.levels = List.replicate p.outputSize 0 ∧
    (∀ q : HashPrimitive, root_hash q e0.levels = List.replicate q.outputSize 0) := by
  obtain ⟨hbs, hsalt, -, hlev, htot, hpow, hmax, -, hsl, -⟩ := new_some p block_size salt e0 h
  have hroot : ∀ q : HashPrimitive, root_hash q e0.levels = List.replicate q.outputSize 0 := by
    intro q
    rw [hlev, root_hash, flush_levels]
  obtain ⟨k, hk⟩ := (is_power_of_two_iff block_size).mp hpow
  have hsl' : salt.length ≤ 32 := hsl
  have hmax' : block_size ≤ 4096 := hmax
  have hk12 : k ≤ 12 := by
    rw [hk, show (4096 : Nat) = 2 ^ 12 by norm_num] at hmax'
    exact (Nat.pow_le_pow_iff_right one_lt_two).mp hmax'
  refine ⟨?_, hroot p, hroot⟩
  have hmain := finalize_descriptor_spec p e0 k hos (by rw [hsalt]; exact hsl')
    (by rw [hbs, hk]) (by omega)
  rw [hmain, htot, hroot p]
  have hswap : spec_descriptor p.algId (Nat.log2 e0.block_size) e0.salt.length 0
      (List.replicate p.outputSize 0) e0.salt =
      spec_descriptor p.algId (Nat.log2 e0.block_size) e0.salt.length 0
        (List.replicate 64 0) e0.salt := by
    rw [spec_descriptor, spec_descriptor]
    have hr : List.replicate p.outputSize (0 : Nat) ++
        List.replicate (64 - (List.replicate p.outputSize (0 : Nat)).length) 0 =
        List.replicate (64 : Nat) (0 : Nat) ++
          List.replicate (64 - (List.replicate (64 : Nat) (0 : Nat)).length) 0 := by
      simp only [List.length_replicate, ← List.replicate_add]
      rw [show p.outputSize + (64 - p.outputSize) = 64 by omega]
    rw [hr]
  rw [hswap]

theorem claim_C3_witness :
    finalize_into tPrim t8e = some (tPrim.H (t8e.salted_digest ++
      spec_descriptor tPrim.algId (Nat.log2 t8e.block_size) t8e.salt.length 0
        (List.replicate 64 0) t8e.salt)) ∧
    root_hash tPrim t8e.levels = List.replicate tPrim.outputSize 0 ∧
    (∀ q : HashPrimitive, root_hash q t8e.levels = List.replicate q.outputSize 0) :=
  claim_C3_empty_input tPrim 8 [] t8e t8e_new (by decide)

/-- Claim C4: for every engine and every sequence of update calls, level 0
(once created) is never empty, with remaining capacity strictly below
block_size (it may be exactly full), and every higher level always keeps room
for at least one whole digest (remaining at least outputSize, hence never
full); a digest value is therefore never split across two blocks. -/
theorem claim_C4_level_invariants (p : HashPrimitive) (block_size : Nat) (salt : List Nat)
    (e0 : FsVerityDigest) (datas : List (List Nat))
    (h : new_with_block_size_and_salt p block_size salt = some e0)
    (hos : 0 < p.outputSize) :
    EngineInv p (update_many p e0 datas) := by
  obtain ⟨hbs, -, hemp, hlev, -, -, -, h2os, -⟩ := new_some p block_size salt e0 h
  have hE : e0.empty_block.remaining = e0.block_size := by
    rw [hemp, hbs]
  have h2os' : p.outputSize * 2 ≤ e0.block_size := by
    rw [hbs]
    exact h2os
  have hinv0 : EngineInv p e0 := by
    intro A As hA
    rw [hlev] at hA
    cases hA
  exact update_many_inv p hos datas e0 hE h2os' hinv0

theorem claim_C4_witness :
    EngineInv tPrim (update_many tPrim t8e [[1, 2, 3], [4, 5, 6, 7, 8, 9]]) :=
  claim_C4_level_invariants tPrim 8 [] t8e [[1, 2, 3], [4, 5, 6, 7, 8, 9]] t8e_new (by decide)

/-- Claim C5: construction succeeds exactly when block_size is a power of two
at most 4096, twice the output size fits in a block, and the salt is at most
32 bytes (which also bounds it by the primitive's compression block size);
afterwards no configuration error can occur: finalize always produces a
digest. -/
theorem claim_C5_construction (p : HashPrimitive) (block_size : Nat) (salt : List Nat)
    (e0 : FsVerityDigest) (ds : List (List Nat))
    (hp : MAX_SALT_SIZE ≤ p.blockSize) (hos : p.outputSize ≤ 64) :
    ((new_with_block_size_and_salt p block_size salt).isSome = true ↔
      ((∃ k, block_size = 2 ^ k) ∧ block_size ≤ 4096 ∧ p.outputSize * 2 ≤ block_size ∧
        salt.length ≤ 32 ∧ salt.length ≤ p.blockSize)) ∧
    (new_with_block_size_and_salt p block_size salt = some e0 →
      (finalize_into p (update_many p e0 ds)).isSome = true) := by
  constructor
  · constructor
    · intro hs
      rw [new_with_block_size_and_salt] at hs
      split at hs
      case isTrue hcond =>
        obtain ⟨h1, h2, h3, h4, h5⟩ := hcond
        have h4' : salt.length ≤ 32 := h4
        have h5' : salt.length ≤ p.blockSize := le_trans h4 h5
        exact ⟨(is_power_of_two_iff block_size).mp h1, h2, h3, h4', h5'⟩
      case isFalse hcond => cases hs
    · rintro ⟨hk, h2, h3, h4, -⟩
      rw [new_with_block_size_and_salt,
        if_pos ⟨(is_power_of_two_iff block_size).mpr hk, h2, h3, h4, hp⟩]
      by_cases hsz : salt.length ≠ 0
      · rw [if_pos hsz, update_padded_le _ _ _ (le_trans h4 hp)]
        rfl
      · rw [if_neg hsz]
        rfl
  · intro h
    obtain ⟨-, hsalt, -, -, -, -, -, -, hsl, -⟩ := new_some p block_size salt e0 h
    have hsl' : salt.length ≤ 32 := hsl
    rw [finalize_into, descriptor_transcript_eq p (update_many p e0 ds) hos
      (by rw [update_many_salt, hsalt]; exact hsl')]
    rfl

theorem claim_C5_witness :
    ((new_with_block_size_and_salt tPrim 8 []).isSome = true ↔
      ((∃ k, (8 : Nat) = 2 ^ k) ∧ (8 : Nat) ≤ 4096 ∧ tPrim.outputSize * 2 ≤ 8 ∧
        List.length ([] : List Nat) ≤ 32 ∧ List.length ([] : List Nat) ≤ tPrim.blockSize)) ∧
    (new_with_block_size_and_salt tPrim 8 [] = some t8e →
      (finalize_into tPrim (update_many tPrim t8e [[9, 9, 9]])).isSome = true) :=
  claim_C5_construction tPrim 8 [] t8e [[9, 9, 9]] (by decide) (by decide)

/-- Claim C6: reset on an engine in any reachable state rebuilds exactly the
freshly constructed engine for the same configuration (empty levels,
total_size 0), so reset followed by update and finalize on X gives the same
digest as a fresh engine fed X. -/
theorem claim_C6_reset (p : HashPrimitive) (block_size : Nat) (salt : List Nat)
    (e0 : FsVerityDigest) (ds : List (List Nat)) (X : List Nat)
    (h : new_with_block_size_and_salt p block_size salt = some e0) :
    reset p (update_many p e0 ds) = some e0 ∧
    e0.levels = [] ∧ e0.total_size = 0 ∧
    Option.bind (reset p (update_many p e0 ds))
      (fun e2 => finalize_into p (update p e2 X)) = finalize_into p (update p e0 X) := by
  obtain ⟨hbs, hsalt, -, hlev, htot, -⟩ := new_some p block_size salt e0 h
  have h1 : reset p (update_many p e0 ds) = some e0 := by
    rw [reset, update_many_block_size, update_many_salt, hbs, hsalt]
    exact h
  refine ⟨h1, hlev, htot, ?_⟩
  rw [h1]
  rfl

theorem claim_C6_witness :
    reset tPrim (update_many tPrim t8e [[1, 2, 3, 4, 5]]) = some t8e ∧
    t8e.levels = [] ∧ t8e.total_size = 0 ∧
    Option.bind (reset tPrim (update_many tPrim t8e [[1, 2, 3, 4, 5]]))
      (fun e2 => finalize_into tPrim (update tPrim e2 [6, 7])) =
      finalize_into tPrim (update tPrim t8e [6, 7]) :=
  claim_C6_reset tPrim 8 [] t8e [[1, 2, 3, 4, 5]] [6, 7] t8e_new

/-- The descriptor transcript always adds exactly 256 bytes on top of the
salted initial state. -/
theorem descriptor_transcript_length (p : HashPrimitive) (e : FsVerityDigest)
    (hos : p.outputSize ≤ 64) (hsalt : e.salt.length ≤ 32) :
    (descriptor_transcript p e).map List.length = some (e.salted_digest.length + 256) := by
  rw [descriptor_transcript_eq p e hos hsalt]
  simp [to_le_bytes_length]
  omega

/-- Claim C7 as stated is false: the descriptor fed to the final hash is 256
bytes, not 184.  Concretely, for the witness engine (empty salt, so the
transcript is exactly the descriptor) the transcript is 256 bytes long. -/
theorem claim_C7_counterexample :
    (descriptor_transcript tPrim t8e).map List.length = some 256 ∧
    (descriptor_transcript tPrim t8e).map List.length ≠ some 184 := by
  have h := descriptor_transcript_length tPrim t8e (by decide) (by decide)
  rw [h]
  constructor
  · rfl
  · decide

/-- Claim C7, amended: the descriptor structure hashed by finalize is a fixed
256-byte structure (the salted digest state absorbs it on top of the salt
padding block). -/
theorem claim_C7_amended_256 (p : HashPrimitive) (block_size : Nat) (salt : List Nat)
    (e0 : FsVerityDigest) (ds : List (List Nat))
    (h : new_with_block_size_and_salt p block_size salt = some e0)
    (hos : p.outputSize ≤ 64) :
    (descriptor_transcript p (update_many p e0 ds)).map List.length =
      some ((update_many p e0 ds).salted_digest.length + 256) := by
  obtain ⟨-, hsalt, -, -, -, -, -, -, hsl, -⟩ := new_some p block_size salt e0 h
  have hsl' : salt.length ≤ 32 := hsl
  have hEsalt : (update_many p e0 ds).salt.length ≤ 32 := by
    rw [update_many_salt, hsalt]
    exact hsl'
  exact descriptor_transcript_length p (update_many p e0 ds) hos hEsalt

theorem claim_C7_amended_witness :
    (descriptor_transcript tPrim (update_many tPrim t8e [[1]])).map List.length =
      some ((update_many tPrim t8e [[1]]).salted_digest.length + 256) :=
  claim_C7_amended_256 tPrim 8 [] t8e [[1]] t8e_new (by decide)

/-- Claim C8: update_padded feeds data and then exactly enough zero bytes to
reach padded_size; its failure branch fires exactly when data is longer than
padded_size (a contract violation), and never otherwise. -/
theorem claim_C8_update_padded (s data : List Nat) (padded_size : Nat) :
    (data.length ≤ padded_size →
      update_padded s data padded_size =
        some (s ++ data ++ List.replicate (padded_size - data.length) 0) ∧
      update_padded s data padded_size =
        some (update_zeroes (s ++ data) (padded_size - data.length))) ∧
    (padded_size < data.length → update_padded s data padded_size = none) := by
  constructor
  · intro h
    exact ⟨update_padded_le s data padded_size h, by rw [update_padded, if_pos h]⟩
  · intro h
    exact update_padded_gt s data padded_size h

theorem claim_C8_witness :
    (update_padded [5] [1, 2] 4 = some ([5] ++ [1, 2] ++ List.replicate (4 - 2) 0) ∧
      update_padded [5] [1, 2] 4 = some (update_zeroes ([5] ++ [1, 2]) (4 - 2))) ∧
    update_padded [5] [1, 2, 3] 2 = none :=
  ⟨(claim_C8_update_padded [5] [1, 2] 4).1 (by norm_num),
   (claim_C8_update_padded [5] [1, 2, 3] 2).2 (by norm_num)⟩

/-- Claim C9: update with an empty byte slice is the identity on the engine
state: levels, total_size and configuration are all unchanged. -/
theorem claim_C9_empty_update (p : HashPrimitive) (e : FsVerityDigest) :
    update p e [] = e :=
  update_nil p e

/-- Claim C10: the Write interface never fails: write returns Ok with the
full buffer length and acts exactly as update, and flush returns Ok leaving
the engine unchanged. -/
theorem claim_C10_write (p : HashPrimitive) (e : FsVerityDigest) (buf : List Nat) :
    write p e buf = (update p e buf, IoResult.ok buf.length) ∧
    (write p e buf).2 ≠ IoResult.err ∧
    flush e = (e, IoResult.ok ()) ∧
    (flush e).2 ≠ IoResult.err := by
  refine ⟨rfl, ?_, rfl, ?_⟩
  · exact fun hcon => IoResult.noConfusion hcon
  · exact fun hcon => IoResult.noConfusion hcon

end FsVerity
